import Mathlib

set_option maxHeartbeats 1600000

/-!
Verification of `packages/wazuh_testing/wazuh_testing/fim.py`.

The module is embedded shallowly: each Python function that the claims
touch becomes a Lean definition with the same name (module-level mutable
state, the `_last_log_line` cursor, is threaded explicitly as an argument
and a returned component).  Log files are lists of lines; JSON records are
association lists.
-/

namespace WazuhFim

/-- Newline character (Python regex `$` also matches just before a final
newline, so it appears in several embeddings below). -/
def nlChar : Char := Char.ofNat 10

/-- Single-quote character, used by the audit-rule regex literals. -/
def quoteChar : Char := Char.ofNat 39

/-- Single-quote as a one-character string. -/
def sq : String := String.mk [quoteChar]

/-- Forward slash, the path separator of `check_path`. -/
def slashChar : Char := Char.ofNat 47

/-- `leadsWith s pat` is true when `pat` occurs at the very start of `s`. -/
def leadsWith : List Char → List Char → Bool
  | _, [] => true
  | [], _ :: _ => false
  | a :: arest, b :: brest => a == b && leadsWith arest brest

/-- `containsSeq s pat`: `pat` occurs contiguously somewhere in `s`
(Python `pat in s`). -/
def containsSeq : List Char → List Char → Bool
  | [], pat => pat.isEmpty
  | c :: rest, pat => leadsWith (c :: rest) pat || containsSeq rest pat

/-- Python substring test `pat in s`. -/
def strContains (s pat : String) : Bool := containsSeq s.toList pat.toList

/-- The literal searched for by `is_fim_scan_ended` (fim.py line 136). -/
def scanEndedMessage : String := "File integrity monitoring scan ended."

/-- The `for line in f` loop of `is_fim_scan_ended` (fim.py lines 137-145):
`lineNumber` is the count of lines already consumed, `last` the stored
cursor `_last_log_line`.  Returns the ordinal of the first line past the
cursor containing the marker, if any. -/
def scanLoop : List String → Nat → Nat → Option Nat
  | [], _, _ => none
  | line :: rest, lineNumber, last =>
    if lineNumber + 1 > last then
      if strContains line scanEndedMessage then some (lineNumber + 1)
      else scanLoop rest (lineNumber + 1) last
    else scanLoop rest (lineNumber + 1) last

/-- `is_fim_scan_ended` (fim.py lines 135-145).  The log file content is
`lines`, the module-global cursor `_last_log_line` comes in as `last` and
goes out as the second component; the first component is the Python return
value (a found line number, or -1). -/
def is_fim_scan_ended (lines : List String) (last : Nat) : Int × Nat :=
  match scanLoop lines 0 last with
  | some n => ((n : Int), n)
  | none => (-1, last)

/-- A sequence of `is_fim_scan_ended` invocations within one process: each
entry of `logs` is the log-file content seen by one invocation, and the
cursor is threaded through.  Returns the final cursor. -/
def runScans (logs : List (List String)) (last : Nat) : Nat :=
  logs.foldl (fun cursor lines => (is_fim_scan_ended lines cursor).2) last

/-- The text of the line with 1-based ordinal `n` (empty if out of range). -/
def lineText (lines : List String) (n : Nat) : String :=
  (lines.get? (n - 1)).getD ""

/-- Whether the line with 1-based ordinal `n` contains the scan-ended
marker. -/
def hasMarker (lines : List String) (n : Nat) : Bool :=
  strContains (lineText lines n) scanEndedMessage

theorem scanLoop_some_spec (lines : List String) (k last n : Nat)
    (h : scanLoop lines k last = some n) :
    k < n ∧ n ≤ k + lines.length ∧ last < n ∧
      strContains ((lines.get? (n - k - 1)).getD "") scanEndedMessage = true ∧
      ∀ m, k < m → last < m → m < n →
        strContains ((lines.get? (m - k - 1)).getD "") scanEndedMessage = false := by
  induction lines generalizing k with
  | nil => simp [scanLoop] at h
  | cons line rest ih =>
    rw [scanLoop] at h
    split at h
    · rename_i h1
      split at h
      · rename_i h2
        obtain rfl : k + 1 = n := by simpa using h
        refine ⟨by omega, by simp, h1, by simpa using h2, ?_⟩
        intro m hm1 _ hm3
        omega
      · rename_i h2
        obtain ⟨g1, g2, g3, g4, g5⟩ := ih (k + 1) h
        have e : n - k - 1 = (n - (k + 1) - 1) + 1 := by omega
        refine ⟨by omega, by simp; omega, g3, ?_, ?_⟩
        · rw [e, List.get?_cons_succ]
          exact g4
        · intro m hm1 hm2 hm3
          rcases Nat.eq_or_lt_of_le hm1 with he | hlt
          · obtain rfl : m = k + 1 := by omega
            simpa using eq_false_of_ne_true h2
          · have em : m - k - 1 = (m - (k + 1) - 1) + 1 := by omega
            rw [em, List.get?_cons_succ]
            exact g5 m hlt hm2 hm3
    · rename_i h1
      obtain ⟨g1, g2, g3, g4, g5⟩ := ih (k + 1) h
      have e : n - k - 1 = (n - (k + 1) - 1) + 1 := by omega
      refine ⟨by omega, by simp; omega, g3, ?_, ?_⟩
      · rw [e, List.get?_cons_succ]
        exact g4
      · intro m hm1 hm2 hm3
        rcases Nat.eq_or_lt_of_le hm1 with he | hlt
        · obtain rfl : m = k + 1 := by omega
          omega
        · have em : m - k - 1 = (m - (k + 1) - 1) + 1 := by omega
          rw [em, List.get?_cons_succ]
          exact g5 m hlt hm2 hm3

theorem scanLoop_none_spec (lines : List String) (k last : Nat)
    (h : scanLoop lines k last = none) :
    ∀ m, k < m → last < m → m ≤ k + lines.length →
      strContains ((lines.get? (m - k - 1)).getD "") scanEndedMessage = false := by
  induction lines generalizing k with
  | nil =>
    intro m hm1 _ hm3
    simp at hm3
    omega
  | cons line rest ih =>
    rw [scanLoop] at h
    intro m hm1 hm2 hm3
    split at h
    · rename_i h1
      split at h
      · exact absurd h (by simp)
      · rename_i h2
        rcases Nat.eq_or_lt_of_le hm1 with he | hlt
        · obtain rfl : m = k + 1 := by omega
          simpa using eq_false_of_ne_true h2
        · have em : m - k - 1 = (m - (k + 1) - 1) + 1 := by omega
          rw [em, List.get?_cons_succ]
          exact ih (k + 1) h m hlt hm2 (by simp at hm3 ⊢; omega)
    · rename_i h1
      rcases Nat.eq_or_lt_of_le hm1 with he | hlt
      · obtain rfl : m = k + 1 := by omega
        omega
      · have em : m - k - 1 = (m - (k + 1) - 1) + 1 := by omega
        rw [em, List.get?_cons_succ]
        exact ih (k + 1) h m hlt hm2 (by simp at hm3 ⊢; omega)

/-- Full behaviour of one `is_fim_scan_ended` invocation: either some line
past the cursor holds the marker, and the first such ordinal is returned
and becomes the new cursor, or no such line exists, the result is -1 and
the cursor is unchanged. -/
theorem scan_characterization (lines : List String) (last : Nat) :
    (∃ n : Nat, is_fim_scan_ended lines last = ((n : Int), n) ∧ last < n ∧
        n ≤ lines.length ∧ hasMarker lines n = true ∧
        ∀ m, last < m → m < n → hasMarker lines m = false) ∨
    (is_fim_scan_ended lines last = (-1, last) ∧
        ∀ n, last < n → n ≤ lines.length → hasMarker lines n = false) := by
  unfold is_fim_scan_ended
  cases hs : scanLoop lines 0 last with
  | some n =>
    left
    obtain ⟨h1, h2, h3, h4, h5⟩ := scanLoop_some_spec lines 0 last n hs
    refine ⟨n, rfl, h3, by omega, ?_, ?_⟩
    · unfold hasMarker lineText
      simpa using h4
    · intro m hm1 hm2
      unfold hasMarker lineText
      simpa using h5 m (by omega) hm1 hm2
  | none =>
    right
    refine ⟨rfl, ?_⟩
    intro n hn1 hn2
    unfold hasMarker lineText
    simpa using scanLoop_none_spec lines 0 last hs n (by omega) hn1 (by omega)

theorem scan_cursor_step_mono (lines : List String) (c : Nat) :
    c ≤ (is_fim_scan_ended lines c).2 := by
  rcases scan_characterization lines c with ⟨n, e, hn, _⟩ | ⟨e, _⟩
  · rw [e]
    exact Nat.le_of_lt hn
  · rw [e]

theorem runScans_mono (logs : List (List String)) :
    ∀ last, last ≤ runScans logs last := by
  induction logs with
  | nil => intro last; simp [runScans]
  | cons l ls ih =>
    intro last
    have h1 : runScans (l :: ls) last = runScans ls (is_fim_scan_ended l last).2 := rfl
    rw [h1]
    exact Nat.le_trans (scan_cursor_step_mono l last) (ih _)

/-- C1: `is_fim_scan_ended` examines only lines with 1-based ordinal
strictly greater than the stored cursor; on the first such line containing
the scan-ended marker it sets the cursor to that ordinal and returns it
immediately (later lines never override), and a line at or below the cursor
is never re-reported: every reported ordinal is strictly greater than the
cursor, and is minimal among marker lines past the cursor. -/
theorem fimC1_scanner_first_match_past_cursor (lines : List String) (last : Nat) :
    (∃ n : Nat, is_fim_scan_ended lines last = ((n : Int), n) ∧ last < n ∧
        n ≤ lines.length ∧ hasMarker lines n = true ∧
        ∀ m, last < m → m < n → hasMarker lines m = false) ∨
    (is_fim_scan_ended lines last = (-1, last) ∧
        ∀ n, last < n → n ≤ lines.length → hasMarker lines n = false) :=
  scan_characterization lines last

/-- C2: when no line past the cursor holds the marker, `is_fim_scan_ended`
returns -1 and leaves the cursor unchanged, and a second invocation on the
same log content again returns -1 with the cursor still unchanged. -/
theorem fimC2_no_marker_idempotent (lines : List String) (last : Nat)
    (h : ∀ n, last < n → n ≤ lines.length → hasMarker lines n = false) :
    is_fim_scan_ended lines last = (-1, last) ∧
    is_fim_scan_ended lines (is_fim_scan_ended lines last).2 = (-1, last) := by
  have h1 : is_fim_scan_ended lines last = (-1, last) := by
    rcases scan_characterization lines last with ⟨n, e, hn1, hn2, hm, _⟩ | ⟨e, _⟩
    · rw [h n hn1 hn2] at hm
      exact absurd hm (by simp)
    · exact e
  refine ⟨h1, ?_⟩
  rw [h1]
  exact h1

theorem fimC2_witness :
    (∀ n, 0 < n → n ≤ ([("hello" : String)] : List String).length →
        hasMarker [("hello" : String)] n = false) ∧
    is_fim_scan_ended [("hello" : String)] 0 = (-1, 0) ∧
    is_fim_scan_ended [("hello" : String)] (is_fim_scan_ended [("hello" : String)] 0).2 = (-1, 0) := by
  have h : ∀ n, 0 < n → n ≤ ([("hello" : String)] : List String).length →
      hasMarker [("hello" : String)] n = false := by
    intro n h1 h2
    obtain rfl : n = 1 := by
      simp at h2
      omega
    decide
  obtain ⟨w1, w2⟩ := fimC2_no_marker_idempotent [("hello" : String)] 0 h
  exact ⟨h, w1, w2⟩

/-- C3: across any sequence of invocations the cursor never decreases, and
on a single invocation it either stays unchanged or — exactly when the
marker is found — becomes the returned matched ordinal, strictly greater
than the previous cursor, at a line that does contain the marker. -/
theorem fimC3_cursor_monotone (logs : List (List String)) (last : Nat) :
    last ≤ runScans logs last ∧
    ∀ lines c, (is_fim_scan_ended lines c).2 = c ∨
      ((is_fim_scan_ended lines c).1 = (((is_fim_scan_ended lines c).2 : Nat) : Int) ∧
        c < (is_fim_scan_ended lines c).2 ∧
        hasMarker lines (is_fim_scan_ended lines c).2 = true) := by
  refine ⟨runScans_mono logs last, ?_⟩
  intro lines c
  rcases scan_characterization lines c with ⟨n, e, hn1, _, hm, _⟩ | ⟨e, _⟩
  · right
    rw [e]
    exact ⟨rfl, hn1, hm⟩
  · left
    rw [e]

/-- ASCII lowercase-hex characters, the class `[a-f0-9]` / `[0-9a-f]`. -/
def isLowerHexChar (c : Char) : Bool :=
  (48 ≤ c.toNat && c.toNat ≤ 57) || (97 ≤ c.toNat && c.toNat ≤ 102)

/-- ASCII decimal digits (the `\d` class, restricted to its ASCII core). -/
def digitChar (c : Char) : Bool := 48 ≤ c.toNat && c.toNat ≤ 57

/-- Given `f` deciding whether a regex body consumes a whole character
sequence, Python `re.match(r'^BODY$', s)` succeeds exactly when the body
consumes all of `s`, or all but a final newline: outside multiline mode
Python `$` matches at the end of the string or just before a newline at
the end of the string. -/
def pyLineMatch (f : List Char → Bool) (s : String) : Bool :=
  f s.toList || ((s.toList.getLast? == some nlChar) && f s.toList.dropLast)

/-- The body `[a-f0-9]{lo,hi}` consuming a whole sequence. -/
def hexRun (lo hi : Nat) (cs : List Char) : Bool :=
  decide (lo ≤ cs.length) && decide (cs.length ≤ hi) && cs.all isLowerHexChar

/-- State machine for the body `(?:\/[^\/]+)*` of `check_path`, started
right after a separator: `needChar` is true when at least one further
segment character is required before the run may end or a new separator
may appear. -/
def pathRun : Bool → List Char → Bool
  | needChar, [] => !needChar
  | needChar, c :: rest =>
    if c == slashChar then
      if needChar then false else pathRun true rest
    else pathRun false rest

/-- The body `(?:\/[^\/]+)*` consuming a whole sequence. -/
def pathSegs : List Char → Bool
  | [] => true
  | c :: rest => (c == slashChar) && pathRun true rest

/-- `check_path` (fim.py lines 26-27): `re.match(r'^(?:\/[^\/]+)*$', value)`. -/
def check_path (s : String) : Bool := pyLineMatch pathSegs s

/-- `check_integer_formatted_string` (lines 30-31): `re.match(r'^\d+$', value)`. -/
def check_integer_formatted_string (s : String) : Bool :=
  pyLineMatch (fun cs => !cs.isEmpty && cs.all digitChar) s

/-- `check_md5` (lines 34-35): `re.match(r'^[a-f0-9]{32}$', value)`. -/
def check_md5 (s : String) : Bool := pyLineMatch (hexRun 32 32) s

/-- `check_sha1` (lines 38-39): `re.match(r'^[0-9a-f]{5,40}$', value)`. -/
def check_sha1 (s : String) : Bool := pyLineMatch (hexRun 5 40) s

/-- `check_sha256` (lines 42-43): `re.match(r'^[a-f0-9]{64}$', value)`. -/
def check_sha256 (s : String) : Bool := pyLineMatch (hexRun 64 64) s

/-- A fixed-shape regex body: one character class per position. -/
def fixedShape : List (Char → Bool) → List Char → Bool
  | [], [] => true
  | p :: ps, c :: cs => p c && fixedShape ps cs
  | _, _ => false

/-- The single-character class matching exactly `a`. -/
def isChar (a : Char) : Char → Bool := fun c => c == a

/-- The body `\d{4}-\d{2}-\d{2}T\d{2}\:\d{2}\:\d{2}` of `check_datetime`
(45, 84 and 58 are the code points of the dash, `T` and colon). -/
def datetimeShape : List (Char → Bool) :=
  List.replicate 4 digitChar ++ [isChar (Char.ofNat 45)] ++
    List.replicate 2 digitChar ++ [isChar (Char.ofNat 45)] ++
    List.replicate 2 digitChar ++ [isChar (Char.ofNat 84)] ++
    List.replicate 2 digitChar ++ [isChar (Char.ofNat 58)] ++
    List.replicate 2 digitChar ++ [isChar (Char.ofNat 58)] ++
    List.replicate 2 digitChar

/-- `check_datetime` (lines 46-47). -/
def check_datetime (s : String) : Bool := pyLineMatch (fixedShape datetimeShape) s

/-- A decoded JSON value, as far as the FIM alert checkers inspect one.
`bool` is kept apart from `int` because Python `isinstance(True, int)` is
true; `other` stands for every remaining JSON shape. -/
inductive JVal where
  | str : String → JVal
  | int : Int → JVal
  | bool : Bool → JVal
  | other : JVal
deriving DecidableEq

/-- Lifts a string-shape checker to a JSON value.  Python hands the value
straight to `re.match`, which raises `TypeError` on a non-string; for the
validator either way the check does not pass. -/
def strCheck (f : String → Bool) : JVal → Bool
  | .str s => f s
  | _ => false

/-- `check_string` (lines 50-51): `isinstance(value, str)`. -/
def check_string : JVal → Bool
  | .str _ => true
  | _ => false

/-- `check_integer` (lines 54-55): `isinstance(value, int)`; Python bools
are instances of int. -/
def check_integer : JVal → Bool
  | .int _ => true
  | .bool _ => true
  | _ => false

/-- `check_event` (lines 58-59): `value in ('added', 'modified', 'deleted')`. -/
def check_event : JVal → Bool
  | .str s => s == "added" || s == "modified" || s == "deleted"
  | _ => false

/-- `FIELDS` (lines 62-74), in source order. -/
def FIELDS : List (String × (JVal → Bool)) :=
  [("path", strCheck check_path),
   ("size_after", strCheck check_integer_formatted_string),
   ("perm_after", strCheck check_integer_formatted_string),
   ("uid_after", strCheck check_integer_formatted_string),
   ("gid_after", strCheck check_integer_formatted_string),
   ("md5_after", strCheck check_md5),
   ("sha1_after", strCheck check_sha1),
   ("sha256_after", strCheck check_sha256),
   ("uname_after", check_string),
   ("gname_after", check_string),
   ("mtime_after", strCheck check_datetime),
   ("inode_after", check_integer),
   ("event", check_event)]

/-- An alert record is a JSON object, embedded as field/value pairs (keys
of a decoded record are unique; lookup takes the first). -/
def alertLookup (alert : List (String × JVal)) (f : String) : Option JVal :=
  List.lookup f alert

/-- `check_fim_alert` (lines 77-86): `true` when every assert passes.  For
each declared field in order: if not excluded, the field must be present
and its value satisfy the checker; if excluded, the field must be absent. -/
def check_fim_alert (alert : List (String × JVal)) (exclude_fields : List String) : Bool :=
  FIELDS.all fun p =>
    if exclude_fields.contains p.1 then (alertLookup alert p.1).isNone
    else
      match alertLookup alert p.1 with
      | some v => p.2 v
      | none => false

theorem check_all_excluded_iff (fields : List (String × (JVal → Bool)))
    (alert : List (String × JVal)) (F : String)
    (h : fields.all (fun p => p.1 == F || ((alertLookup alert p.1).map p.2).getD false) = true) :
    (fields.all (fun p =>
        if ([F] : List String).contains p.1 then (alertLookup alert p.1).isNone
        else
          match alertLookup alert p.1 with
          | some v => p.2 v
          | none => false) = false) ↔
      (F ∈ fields.map Prod.fst ∧ (alertLookup alert F).isSome = true) := by
  induction fields with
  | nil => simp
  | cons fc rest ih =>
    rw [List.all_cons] at h
    have hhd := ((Bool.and_eq_true _ _).mp h).1
    have htl := ((Bool.and_eq_true _ _).mp h).2
    rw [List.all_cons, List.map_cons]
    by_cases hf : fc.1 = F
    · have hc : ([F] : List String).contains fc.1 = true := by
        simp [List.contains, hf]
      rw [hc]
      simp only [if_true, Bool.and_eq_false_iff]
      subst hf
      constructor
      · rintro (h1 | h1)
        · exact ⟨List.mem_cons_self _ _, by simpa using h1⟩
        · exact ⟨List.mem_cons_self _ _, ((ih htl).mp h1).2⟩
      · rintro ⟨_, h2⟩
        left
        simpa using h2
    · have hc : ([F] : List String).contains fc.1 = false := by
        simpa [List.contains] using hf
      rw [hc]
      have hval : (fc.1 == F || ((alertLookup alert fc.1).map fc.2).getD false) = true := hhd
      have hne : (fc.1 == F) = false := by
        simp [hf]
      rw [hne, Bool.false_or] at hval
      obtain ⟨v, hv, hcv⟩ : ∃ v, alertLookup alert fc.1 = some v ∧ fc.2 v = true := by
        cases hl : alertLookup alert fc.1 with
        | none => rw [hl] at hval; simp at hval
        | some v => rw [hl] at hval; exact ⟨v, rfl, by simpa using hval⟩
      rw [if_neg (by simp : ¬(false = true))]
      rw [hv]
      simp only [hcv, Bool.true_and]
      rw [ih htl]
      constructor
      · rintro ⟨h1, h2⟩
        exact ⟨List.mem_cons.mpr (Or.inr h1), h2⟩
      · rintro ⟨h1, h2⟩
        rcases List.mem_cons.mp h1 with he | hm
        · exact absurd he.symm hf
        · exact ⟨hm, h2⟩

/-- A fully valid alert record carrying one extra key `foo` that is not a
declared field. -/
def cexAlert : List (String × JVal) :=
  [("path", JVal.str "/a"),
   ("size_after", JVal.str "1"),
   ("perm_after", JVal.str "1"),
   ("uid_after", JVal.str "0"),
   ("gid_after", JVal.str "0"),
   ("md5_after", JVal.str (String.mk (List.replicate 32 (Char.ofNat 97)))),
   ("sha1_after", JVal.str "aaaaa"),
   ("sha256_after", JVal.str (String.mk (List.replicate 64 (Char.ofNat 97)))),
   ("uname_after", JVal.str "root"),
   ("gname_after", JVal.str "root"),
   ("mtime_after", JVal.str "2020-01-01T00:00:00"),
   ("inode_after", JVal.int 1),
   ("event", JVal.str "added"),
   ("foo", JVal.str "x")]

/-- A valid alert record with every declared field except `event`. -/
def walertC4 : List (String × JVal) :=
  [("path", JVal.str "/a"),
   ("size_after", JVal.str "1"),
   ("perm_after", JVal.str "1"),
   ("uid_after", JVal.str "0"),
   ("gid_after", JVal.str "0"),
   ("md5_after", JVal.str (String.mk (List.replicate 32 (Char.ofNat 97)))),
   ("sha1_after", JVal.str "aaaaa"),
   ("sha256_after", JVal.str (String.mk (List.replicate 64 (Char.ofNat 97)))),
   ("uname_after", JVal.str "root"),
   ("gname_after", JVal.str "root"),
   ("mtime_after", JVal.str "2020-01-01T00:00:00"),
   ("inode_after", JVal.int 1)]

/-- C4, counterexample to the claim as stated: take `F := "foo"`, a name
that is not a declared field, and a record in which every declared field
(all of them differ from `foo`) is present and valid while `foo` is also
present.  The claim then demands that the validation fail, yet
`check_fim_alert` passes: the loop inspects declared fields only, so an
excluded name outside `FIELDS` is never asserted absent. -/
theorem fimC4_counterexample :
    (FIELDS.all (fun p =>
        p.1 == "foo" || ((alertLookup cexAlert p.1).map p.2).getD false) = true) ∧
    (alertLookup cexAlert "foo").isSome = true ∧
    check_fim_alert cexAlert ["foo"] = true := by
  refine ⟨by decide, by decide, by decide⟩

/-- C4 as amended: for every DECLARED field `F`, if every declared field
other than `F` is present and satisfies its predicate, then
`check_fim_alert record [F]` fails exactly when `F` is present in the
record. -/
theorem fimC4_exclusion_iff_presence (alert : List (String × JVal)) (F : String)
    (hF : F ∈ FIELDS.map Prod.fst)
    (h : FIELDS.all (fun p => p.1 == F || ((alertLookup alert p.1).map p.2).getD false) = true) :
    check_fim_alert alert [F] = false ↔ (alertLookup alert F).isSome = true := by
  have e : check_fim_alert alert [F] =
      FIELDS.all (fun p =>
        if ([F] : List String).contains p.1 then (alertLookup alert p.1).isNone
        else
          match alertLookup alert p.1 with
          | some v => p.2 v
          | none => false) := rfl
  rw [e, check_all_excluded_iff FIELDS alert F h]
  simp [hF]

theorem fimC4_witness :
    ("event" ∈ FIELDS.map Prod.fst) ∧
    (FIELDS.all (fun p =>
        p.1 == "event" || ((alertLookup walertC4 p.1).map p.2).getD false) = true) ∧
    (check_fim_alert walertC4 ["event"] = false ↔
      (alertLookup walertC4 "event").isSome = true) :=
  ⟨by decide, by decide,
    fimC4_exclusion_iff_presence walertC4 "event" (by decide) (by decide)⟩

/-- Outcome of one `check_checkers` call: every assert passes, an assert
fails (`AssertionError`), or `set.remove` raises `KeyError`. -/
inductive CheckOutcome where
  | ok
  | assertFail
  | keyError
deriving DecidableEq

/-- Like `CheckOutcome` but carrying the surviving default set on success,
so that intermediate states of the loop can be spoken about. -/
inductive CheckRun where
  | ok : List String → CheckRun
  | assertFail
  | keyError
deriving DecidableEq

/-- `default_attributes` (lines 109-123); only membership, removal and
subset tests are applied to it, so the Python set is embedded as the list
of its (distinct) elements. -/
def default_attributes : List String :=
  ["type", "size", "perm", "uid", "gid", "user_name", "group_name", "inode",
   "mtime", "hash_md5", "hash_sha1", "hash_sha256", "checksum"]

/-- The `for check in checkers.items()` loop of `check_checkers`
(lines 125-132), threading the mutated default set.  `set.remove` of an
absent member raises `KeyError`. -/
def check_checkers_run : List (String × String) → List String → List String → CheckRun
  | [], defaults, _ => .ok defaults
  | (a, v) :: rest, defaults, event_keys =>
    if v == "yes" then
      if event_keys.contains a then check_checkers_run rest defaults event_keys
      else .assertFail
    else if v == "except" then
      if defaults.contains a then
        if event_keys.all (fun k => (defaults.erase a).contains k) then
          check_checkers_run rest (defaults.erase a) event_keys
        else .assertFail
      else .keyError
    else
      if event_keys.contains a then .assertFail
      else check_checkers_run rest defaults event_keys

/-- `check_checkers` (lines 95-132).  The checkers dict is embedded as its
item list in iteration order; the event record as the key set of
`event['data']['attributes']`. -/
def check_checkers (checkers : List (String × String)) (event_keys : List String) :
    CheckOutcome :=
  match check_checkers_run checkers default_attributes event_keys with
  | .ok _ => .ok
  | .assertFail => .assertFail
  | .keyError => .keyError

/-- The success condition of claim C5, in the words of the spec: pairs are
processed in iteration order; "yes" demands the attribute among the event
attribute keys; "except" removes the attribute from the current default
set — which presupposes membership — and demands the observed key set a
subset of the reduced set; any other value demands the attribute absent. -/
def checkersSpec : List (String × String) → List String → List String → Prop
  | [], _, _ => True
  | (a, v) :: rest, defaults, event_keys =>
    if v = "yes" then a ∈ event_keys ∧ checkersSpec rest defaults event_keys
    else if v = "except" then
      a ∈ defaults ∧ event_keys ⊆ defaults.erase a ∧
        checkersSpec rest (defaults.erase a) event_keys
    else a ∉ event_keys ∧ checkersSpec rest defaults event_keys

theorem check_checkers_run_ok_iff (checkers : List (String × String)) :
    ∀ defaults event_keys : List String,
      (∃ d, check_checkers_run checkers defaults event_keys = .ok d) ↔
        checkersSpec checkers defaults event_keys := by
  induction checkers with
  | nil =>
    intro defaults event_keys
    simp [check_checkers_run, checkersSpec]
  | cons av rest ih =>
    intro defaults event_keys
    obtain ⟨a, v⟩ := av
    rw [check_checkers_run, checkersSpec]
    by_cases hy : v = "yes"
    · rw [if_pos (by simpa using hy), if_pos hy]
      by_cases hk : a ∈ event_keys
      · rw [if_pos (by simpa [List.contains] using hk)]
        rw [ih defaults event_keys]
        simp [hk]
      · rw [if_neg (by simpa [List.contains] using hk)]
        simp [hk]
    · rw [if_neg (by simpa using hy), if_neg hy]
      by_cases he : v = "except"
      · rw [if_pos (by simpa using he), if_pos he]
        by_cases hd : a ∈ defaults
        · rw [if_pos (by simpa [List.contains] using hd)]
          by_cases hs : event_keys ⊆ defaults.erase a
          · rw [if_pos ?side]
            case side =>
              rw [List.all_eq_true]
              intro k hk
              simpa [List.contains] using hs hk
            rw [ih (defaults.erase a) event_keys]
            simp [hd, hs]
          · rw [if_neg ?side]
            case side =>
              rw [List.all_eq_true]
              intro hall
              exact hs fun k hk => by simpa [List.contains] using hall k hk
            simp [hs]
        · rw [if_neg (by simpa [List.contains] using hd)]
          simp [hd]
      · rw [if_neg (by simpa using he), if_neg he]
        by_cases hk : a ∈ event_keys
        · rw [if_pos (by simpa [List.contains] using hk)]
          simp [hk]
        · rw [if_neg (by simpa [List.contains] using hk)]
          rw [ih defaults event_keys]
          simp [hk]

theorem check_checkers_ok_iff (checkers : List (String × String))
    (event_keys : List String) :
    check_checkers checkers event_keys = CheckOutcome.ok ↔
      checkersSpec checkers default_attributes event_keys := by
  rw [← check_checkers_run_ok_iff checkers default_attributes event_keys]
  unfold check_checkers
  cases h : check_checkers_run checkers default_attributes event_keys with
  | ok d =>
    constructor
    · intro
      exact ⟨d, rfl⟩
    · intro
      rfl
  | assertFail => simp
  | keyError => simp

/-- C5: `check_checkers` succeeds exactly under the spec's in-order
directive conditions; in particular, for an attribute `A` of the default
set mapped to "except", an event whose attribute keys lie inside the
defaults minus `A` passes, and one containing `A` fails. -/
theorem fimC5_check_checkers_ok (checkers : List (String × String))
    (event_keys : List String) :
    (check_checkers checkers event_keys = CheckOutcome.ok ↔
        checkersSpec checkers default_attributes event_keys) ∧
    (∀ A keys2, A ∈ default_attributes → keys2 ⊆ default_attributes.erase A →
        check_checkers [(A, "except")] keys2 = CheckOutcome.ok) ∧
    (∀ A keys2, A ∈ default_attributes → A ∈ keys2 →
        check_checkers [(A, "except")] keys2 ≠ CheckOutcome.ok) := by
  refine ⟨check_checkers_ok_iff checkers event_keys, ?_, ?_⟩
  · intro A keys2 hA hsub
    rw [check_checkers_ok_iff]
    rw [checkersSpec]
    rw [if_neg (by decide), if_pos rfl]
    exact ⟨hA, hsub, trivial⟩
  · intro A keys2 hA hk h
    rw [check_checkers_ok_iff] at h
    rw [checkersSpec] at h
    rw [if_neg (by decide), if_pos rfl] at h
    have hmem : A ∈ default_attributes.erase A := h.2.1 hk
    have hnd : default_attributes.Nodup := by decide
    rw [hnd.mem_erase_iff] at hmem
    exact hmem.1 rfl

theorem fimC5_witness :
    ("size" ∈ default_attributes ∧
      (["perm"] : List String) ⊆ default_attributes.erase "size" ∧
      check_checkers [("size", "except")] ["perm"] = CheckOutcome.ok) ∧
    ("size" ∈ default_attributes ∧ "size" ∈ (["size"] : List String) ∧
      check_checkers [("size", "except")] ["size"] ≠ CheckOutcome.ok) := by
  have hsub : (["perm"] : List String) ⊆ default_attributes.erase "size" := by
    intro x hx
    rw [List.mem_singleton] at hx
    subst hx
    decide
  exact ⟨⟨by decide, hsub,
      (fimC5_check_checkers_ok [] []).2.1 "size" ["perm"] (by decide) hsub⟩,
    ⟨by decide, by decide,
      (fimC5_check_checkers_ok [] []).2.2 "size" ["size"] (by decide) (by decide)⟩⟩

theorem check_checkers_run_append (l1 l2 : List (String × String))
    (event_keys : List String) :
    ∀ defaults, check_checkers_run (l1 ++ l2) defaults event_keys =
      match check_checkers_run l1 defaults event_keys with
      | .ok d => check_checkers_run l2 d event_keys
      | .assertFail => .assertFail
      | .keyError => .keyError := by
  induction l1 with
  | nil => intro defaults; rfl
  | cons av rest ih =>
    intro defaults
    obtain ⟨a, v⟩ := av
    rw [List.cons_append, check_checkers_run, check_checkers_run]
    by_cases hy : (v == "yes") = true
    · rw [if_pos hy, if_pos hy]
      by_cases hk : (event_keys.contains a) = true
      · rw [if_pos hk, if_pos hk]
        exact ih defaults
      · rw [if_neg hk, if_neg hk]
    · rw [if_neg hy, if_neg hy]
      by_cases he : (v == "except") = true
      · rw [if_pos he, if_pos he]
        by_cases hd : (defaults.contains a) = true
        · rw [if_pos hd, if_pos hd]
          by_cases hs : (event_keys.all fun k => (defaults.erase a).contains k) = true
          · rw [if_pos hs, if_pos hs]
            exact ih (defaults.erase a)
          · rw [if_neg hs, if_neg hs]
        · rw [if_neg hd, if_neg hd]
      · rw [if_neg he, if_neg he]
        by_cases hk : (event_keys.contains a) = true
        · rw [if_pos hk, if_pos hk]
        · rw [if_neg hk, if_neg hk]
          exact ih defaults

/-- C10: if the loop reaches a pair mapping attribute `X` to "except" at
a point where `X` is not a member of the current default set — `X` is not
one of the thirteen default names, or an earlier "except" removed it —
then `check_checkers` ends in `KeyError`, not in an assert failure or
success. -/
theorem fimC10_except_keyerror (pre rest : List (String × String))
    (event_keys : List String) (X : String) (d : List String)
    (h1 : check_checkers_run pre default_attributes event_keys = .ok d)
    (h2 : X ∉ d) :
    check_checkers (pre ++ (X, "except") :: rest) event_keys = CheckOutcome.keyError := by
  unfold check_checkers
  rw [check_checkers_run_append pre ((X, "except") :: rest) event_keys default_attributes, h1]
  have hstep : check_checkers_run ((X, "except") :: rest) d event_keys = .keyError := by
    rw [check_checkers_run]
    rw [if_neg (by decide), if_pos (by decide)]
    rw [if_neg (by simpa [List.contains] using h2)]
  show (match check_checkers_run ((X, "except") :: rest) d event_keys with
      | CheckRun.ok _ => CheckOutcome.ok
      | CheckRun.assertFail => CheckOutcome.assertFail
      | CheckRun.keyError => CheckOutcome.keyError) = CheckOutcome.keyError
  rw [hstep]

theorem fimC10_witness :
    (check_checkers_run [] default_attributes [] = CheckRun.ok default_attributes) ∧
    ("nope" ∉ default_attributes) ∧
    check_checkers ([] ++ ("nope", "except") :: []) [] = CheckOutcome.keyError :=
  ⟨rfl, by decide,
    fimC10_except_keyerror [] [] [] "nope" default_attributes rfl (by decide)⟩

theorem concat_form_iff (cs : List Char) (a : Char) (P : List Char → Prop) :
    (∃ t, cs = t ++ [a] ∧ P t) ↔ (cs.getLast? = some a ∧ P cs.dropLast) := by
  constructor
  · rintro ⟨t, rfl, hP⟩
    rw [List.getLast?_concat, List.dropLast_concat]
    exact ⟨rfl, hP⟩
  · rintro ⟨h1, h2⟩
    refine ⟨cs.dropLast, ?_, h2⟩
    exact (List.dropLast_append_getLast? a h1).symm

/-- What `re.match(r'^BODY$', s)` truthiness means when `f` decides total
consumption by the body: the body consumes the whole string, or the whole
string short of one final newline. -/
theorem pyLineMatch_iff (f : List Char → Bool) (s : String) :
    pyLineMatch f s = true ↔
      (f s.toList = true ∨ ∃ t, s.toList = t ++ [nlChar] ∧ f t = true) := by
  unfold pyLineMatch
  rw [Bool.or_eq_true, Bool.and_eq_true]
  rw [concat_form_iff s.toList nlChar (fun t => f t = true)]
  rw [show ((s.toList.getLast? == some nlChar) = true) ↔ s.toList.getLast? = some nlChar from
    beq_iff_eq]

/-- The claim's description of a digest: between `lo` and `hi` characters,
all lowercase hex. -/
def HexString (lo hi : Nat) (cs : List Char) : Prop :=
  lo ≤ cs.length ∧ cs.length ≤ hi ∧ ∀ c ∈ cs, isLowerHexChar c = true

theorem hexRun_iff (lo hi : Nat) (cs : List Char) :
    hexRun lo hi cs = true ↔ HexString lo hi cs := by
  unfold hexRun HexString
  simp [List.all_eq_true, and_assoc]

/-- C6, counterexample to the claim as stated: 64 hex characters followed
by one newline form a string of length 65, outside the exact length the
claim allows, yet `check_sha256` accepts it (Python `$` also matches just
before a trailing newline). -/
theorem fimC6_counterexample :
    check_sha256 (String.mk (List.replicate 64 (Char.ofNat 97) ++ [nlChar])) = true ∧
    (String.mk (List.replicate 64 (Char.ofNat 97) ++ [nlChar])).length = 65 := by
  refine ⟨by decide, by decide⟩

/-- C6 as amended: each digest predicate accepts exactly the strings of
the specified exact or ranged length composed solely of lowercase hex
digits, OPTIONALLY followed by one final newline (an artifact of Python
`$`); in particular every uppercase character, every other character, and
every other length is rejected. -/
theorem fimC6_hash_predicates (s : String) :
    (check_md5 s = true ↔
        (HexString 32 32 s.toList ∨ ∃ t, s.toList = t ++ [nlChar] ∧ HexString 32 32 t)) ∧
    (check_sha1 s = true ↔
        (HexString 5 40 s.toList ∨ ∃ t, s.toList = t ++ [nlChar] ∧ HexString 5 40 t)) ∧
    (check_sha256 s = true ↔
        (HexString 64 64 s.toList ∨ ∃ t, s.toList = t ++ [nlChar] ∧ HexString 64 64 t)) := by
  refine ⟨?_, ?_, ?_⟩
  · unfold check_md5
    rw [pyLineMatch_iff]
    simp only [hexRun_iff]
  · unfold check_sha1
    rw [pyLineMatch_iff]
    simp only [hexRun_iff]
  · unfold check_sha256
    rw [pyLineMatch_iff]
    simp only [hexRun_iff]

theorem fimC6_witness :
    check_sha256 (String.mk (List.replicate 64 (Char.ofNat 97))) = true ↔
      (HexString 64 64 (String.mk (List.replicate 64 (Char.ofNat 97))).toList ∨
        ∃ t, (String.mk (List.replicate 64 (Char.ofNat 97))).toList = t ++ [nlChar] ∧
          HexString 64 64 t) :=
  (fimC6_hash_predicates (String.mk (List.replicate 64 (Char.ofNat 97)))).2.2

/-- The claim's path shape: the empty string, or one or more `/segment`
components with non-empty separator-free segments and no trailing slash. -/
inductive PathOk : List Char → Prop where
  | nil : PathOk []
  | seg (g rest : List Char) (hg : g ≠ []) (hs : slashChar ∉ g) (h : PathOk rest) :
      PathOk (slashChar :: g ++ rest)

theorem PathOk_head (c : Char) (cs : List Char) (h : PathOk (c :: cs)) : c = slashChar := by
  cases h
  rfl

theorem PathOk_slash_iff (cs : List Char) :
    PathOk (slashChar :: cs) ↔
      ∃ g rest, cs = g ++ rest ∧ g ≠ [] ∧ slashChar ∉ g ∧ PathOk rest := by
  constructor
  · intro h
    cases h with
    | seg g rest hg hs hr => exact ⟨g, rest, rfl, hg, hs, hr⟩
  · rintro ⟨g, rest, rfl, hg, hs, hr⟩
    exact PathOk.seg g rest hg hs hr

theorem pathRun_iff (cs : List Char) :
    (pathRun true cs = true ↔
        ∃ g rest, cs = g ++ rest ∧ g ≠ [] ∧ slashChar ∉ g ∧ PathOk rest) ∧
    (pathRun false cs = true ↔
        ∃ g rest, cs = g ++ rest ∧ slashChar ∉ g ∧ PathOk rest) := by
  induction cs with
  | nil =>
    constructor
    · rw [pathRun]
      simp
    · rw [pathRun]
      constructor
      · intro
        exact ⟨[], [], rfl, by simp, PathOk.nil⟩
      · intro
        rfl
  | cons c cs ih =>
    by_cases hc : c = slashChar
    · subst hc
      constructor
      · rw [pathRun, if_pos (by simp), if_pos rfl]
        constructor
        · intro h
          exact absurd h (by simp)
        · rintro ⟨g, rest, he, hg, hs, hr⟩
          cases g with
          | nil => exact absurd rfl hg
          | cons b g2 =>
            rw [List.cons_append] at he
            injection he with hb _
            exact absurd hb.symm (by intro e; exact hs (e ▸ List.mem_cons_self _ _))
      · rw [pathRun, if_pos (by simp), if_neg (by simp)]
        rw [(ih.1 : _)]
        constructor
        · rintro ⟨g, rest, rfl, hg, hs, hr⟩
          exact ⟨[], slashChar :: g ++ rest, rfl, by simp,
            PathOk.seg g rest hg hs hr⟩
        · rintro ⟨g, rest, he, hs, hr⟩
          cases g with
          | nil =>
            simp only [List.nil_append] at he
            rw [← he] at hr
            exact (PathOk_slash_iff cs).mp hr
          | cons b g2 =>
            rw [List.cons_append] at he
            injection he with hb _
            exact absurd hb.symm (by intro e; exact hs (e ▸ List.mem_cons_self _ _))
    · constructor
      · rw [pathRun, if_neg (by simpa using hc)]
        rw [(ih.2 : _)]
        constructor
        · rintro ⟨g, rest, rfl, hs, hr⟩
          refine ⟨c :: g, rest, rfl, by simp, ?_, hr⟩
          intro hm
          rcases List.mem_cons.mp hm with he | hm2
          · exact hc he.symm
          · exact hs hm2
        · rintro ⟨g, rest, he, hg, hs, hr⟩
          cases g with
          | nil => exact absurd rfl hg
          | cons b g2 =>
            rw [List.cons_append] at he
            injection he with hb ht
            refine ⟨g2, rest, ht, ?_, hr⟩
            intro hm
            exact hs (List.mem_cons.mpr (Or.inr hm))
      · rw [pathRun, if_neg (by simpa using hc)]
        rw [(ih.2 : _)]
        constructor
        · rintro ⟨g, rest, rfl, hs, hr⟩
          refine ⟨c :: g, rest, rfl, ?_, hr⟩
          intro hm
          rcases List.mem_cons.mp hm with he | hm2
          · exact hc he.symm
          · exact hs hm2
        · rintro ⟨g, rest, he, hs, hr⟩
          cases g with
          | nil =>
            simp only [List.nil_append] at he
            rw [← he] at hr
            exact absurd (PathOk_head c cs hr) hc
          | cons b g2 =>
            rw [List.cons_append] at he
            injection he with hb ht
            refine ⟨g2, rest, ht, ?_, hr⟩
            intro hm
            exact hs (List.mem_cons.mpr (Or.inr hm))

theorem pathSegs_iff (cs : List Char) : pathSegs cs = true ↔ PathOk cs := by
  cases cs with
  | nil =>
    rw [pathSegs]
    constructor
    · intro
      exact PathOk.nil
    · intro
      rfl
  | cons c rest =>
    rw [pathSegs]
    by_cases hc : c = slashChar
    · subst hc
      rw [show ((slashChar == slashChar) = true) from by simp, Bool.true_and]
      rw [(pathRun_iff rest).1]
      exact (PathOk_slash_iff rest).symm
    · rw [show ((c == slashChar) = false) from by simpa using hc, Bool.false_and]
      constructor
      · intro h
        exact absurd h (by simp)
      · intro h
        exact absurd (PathOk_head c rest h) hc

/-- C7, counterexample to the claim as stated: the one-character string
holding a single newline does not start with a slash, so the claim demands
rejection, yet `check_path` accepts it (the regex body matches the empty
prefix and Python `$` matches just before the trailing newline). -/
theorem fimC7_counterexample :
    check_path (String.mk [nlChar]) = true ∧
    String.mk [nlChar] ≠ "" ∧
    (String.mk [nlChar]).toList.head? ≠ some slashChar := by
  refine ⟨by decide, by decide, by decide⟩

/-- C7 as amended: `check_path` accepts exactly the empty string and
strings of one or more `/segment` components with non-empty
separator-free segments and no trailing slash, OPTIONALLY followed by one
final newline (an artifact of Python `$`); everything else — no leading
slash, a trailing slash, an empty interior segment — is rejected. -/
theorem fimC7_check_path_iff (s : String) :
    check_path s = true ↔
      (PathOk s.toList ∨ ∃ t, s.toList = t ++ [nlChar] ∧ PathOk t) := by
  unfold check_path
  rw [pyLineMatch_iff]
  simp only [pathSegs_iff]

theorem fimC7_witness :
    check_path "/a/b/c" = true ↔
      (PathOk ("/a/b/c" : String).toList ∨
        ∃ t, ("/a/b/c" : String).toList = t ++ [nlChar] ∧ PathOk t) :=
  fimC7_check_path_iff "/a/b/c"

/-- Python `lst[-n:]` for a nonnegative `n`: the whole list when `n = 0`
(`lst[-0:]` is `lst[0:]`), else the trailing `n` entries (all of them when
fewer than `n` exist). -/
def pySliceLast {α : Type} (n : Nat) (xs : List α) : List α :=
  if n = 0 then xs else xs.drop (xs.length - n)

/-- `jq('.syscheck').transform(text=alerts, multiple_output=True)`: one
output per JSON-lines record — the value of the record's `syscheck` key,
or null (`none`) when the record lacks one.  Records are embedded as
association lists over an arbitrary payload type. -/
def jqSyscheck {α : Type} (records : List (List (String × α))) : List (Option α) :=
  records.map fun r => List.lookup "syscheck" r

/-- `load_fim_alerts` (lines 89-92):
`list(filter(lambda x: x is not None, jq('.syscheck').transform(...)))[-n_last:]`. -/
def load_fim_alerts {α : Type} (records : List (List (String × α))) (n_last : Nat) :
    List α :=
  pySliceLast n_last ((jqSyscheck records).filterMap id)

/-- C8: `load_fim_alerts` keeps, in original file order, the `syscheck`
sub-objects of exactly the records holding one (the rest are dropped
silently) and returns a trailing slice of them: all of them when `n = 0`
or when fewer than `n` exist, and exactly the last `n` otherwise. -/
theorem fimC8_load_trailing {α : Type} (records : List (List (String × α))) (n : Nat) :
    ((load_fim_alerts records n).IsSuffix
        ((records.map fun r => List.lookup "syscheck" r).filterMap id)) ∧
    (n = 0 → load_fim_alerts records n =
        (records.map fun r => List.lookup "syscheck" r).filterMap id) ∧
    (((records.map fun r => List.lookup "syscheck" r).filterMap id).length ≤ n →
        load_fim_alerts records n =
          (records.map fun r => List.lookup "syscheck" r).filterMap id) ∧
    (0 < n → n ≤ ((records.map fun r => List.lookup "syscheck" r).filterMap id).length →
        (load_fim_alerts records n).length = n) := by
  have e : load_fim_alerts records n =
      pySliceLast n ((records.map fun r => List.lookup "syscheck" r).filterMap id) := rfl
  refine ⟨?_, ?_, ?_, ?_⟩
  · rw [e]
    unfold pySliceLast
    by_cases h0 : n = 0
    · rw [if_pos h0]
    · rw [if_neg h0]
      exact List.drop_suffix _ _
  · intro h0
    rw [e]
    unfold pySliceLast
    rw [if_pos h0]
  · intro hle
    rw [e]
    unfold pySliceLast
    by_cases h0 : n = 0
    · rw [if_pos h0]
    · rw [if_neg h0, Nat.sub_eq_zero_of_le hle, List.drop_zero]
  · intro hpos hle
    rw [e]
    unfold pySliceLast
    rw [if_neg (by omega), List.length_drop]
    omega

/-- A five-record alert log, two records lacking the `syscheck` key. -/
def recsC8 : List (List (String × Nat)) :=
  [[("syscheck", 1)], [("x", 0)], [("syscheck", 2)], [("y", 0)], [("syscheck", 3)]]

theorem fimC8_witness :
    load_fim_alerts recsC8 2 = [2, 3] ∧
    (load_fim_alerts recsC8 2).IsSuffix
      ((recsC8.map fun r => List.lookup "syscheck" r).filterMap id) :=
  ⟨by decide, (fimC8_load_trailing recsC8 2).1⟩

/-- No newline among the characters: outside DOTALL mode the regex `.`
(and the class `[^\/]` never fed a newline here) stops at newlines for the
purposes of `.*` runs. -/
def noNL (cs : List Char) : Bool := cs.all fun c => !(c == nlChar)

/-- Characters of `cs` from position `p` (inclusive) to `q` (exclusive). -/
def sliceChars (cs : List Char) (p q : Nat) : List Char := (cs.take q).drop p

/-- Position `i` can end the leading greedy `.*` and start the literal
`pre`: the consumed prefix holds no newline and `pre` occurs at `i`. -/
def startOK (cs pre : List Char) (i : Nat) : Bool :=
  noNL (cs.take i) && leadsWith (cs.drop i) pre

/-- With the capture starting at `p`, position `q` can end the greedy
`(.+)` and start the literal `post`: the capture is non-empty and
newline-free and `post` occurs at `q`. -/
def capOK (cs post : List Char) (p q : Nat) : Bool :=
  decide (p < q) && noNL (sliceChars cs p q) && leadsWith (cs.drop q) post

/-- Position `i` admits a full match of `PRE(.+)POST` starting there. -/
def pairOKf (cs pre post : List Char) (i : Nat) : Bool :=
  startOK cs pre i &&
    ((List.range (cs.length + 1)).any fun q => capOK cs post (i + pre.length) q)

/-- `re.match(r'.*PRE(.+)POST', s)` and its only capture group, under
CPython backtracking: the leading greedy `.*` ends at the largest feasible
position and, that fixed, the greedy `(.+)` ends at the largest feasible
position; `None` (here `none`) when no decomposition exists.  The pattern
is unanchored at the right, so trailing text is ignored. -/
def pyMatch1 (pre post : String) (s : String) : Option String :=
  match ((List.range (s.toList.length + 1)).filter
      (pairOKf s.toList pre.toList post.toList)).getLast? with
  | none => none
  | some i =>
    match ((List.range (s.toList.length + 1)).filter
        (capOK s.toList post.toList (i + pre.toList.length))).getLast? with
    | none => none
    | some q => some (String.mk (sliceChars s.toList (i + pre.toList.length) q))

/-- Literal before the capture in `callback_audit_added_rule` (line 317). -/
def addedRulePre : String := "Added audit rule for monitoring directory: " ++ sq

/-- Literal before the capture in `callback_audit_loaded_rule` (line 336). -/
def loadedRulePre : String := "Audit rule loaded: -w "

/-- Literal after the capture in `callback_audit_loaded_rule` (line 336). -/
def loadedRulePost : String := " -p"

/-- Literal before the capture in `callback_realtime_added_directory`
(line 343). -/
def realtimePre : String := "Directory added for real time monitoring: " ++ sq

/-- `callback_audit_added_rule` (lines 316-320). -/
def callback_audit_added_rule (line : String) : Option String :=
  pyMatch1 addedRulePre sq line

/-- `callback_audit_loaded_rule` (lines 335-339). -/
def callback_audit_loaded_rule (line : String) : Option String :=
  pyMatch1 loadedRulePre loadedRulePost line

/-- `callback_realtime_added_directory` (lines 342-346). -/
def callback_realtime_added_directory (line : String) : Option String :=
  pyMatch1 realtimePre sq line

/-- `g` is a feasible capture of `re.match(r'.*PRE(.+)POST', s)`: the line
splits as `a ++ PRE ++ g ++ POST ++ b` with no newline before or inside
the capture and the capture non-empty. -/
def ValidCapture (pre post s g : String) : Prop :=
  ∃ a b : List Char,
    s.toList = a ++ pre.toList ++ g.toList ++ post.toList ++ b ∧
      nlChar ∉ a ∧ g.toList ≠ [] ∧ nlChar ∉ g.toList

theorem leadsWith_iff (pat : List Char) :
    ∀ cs, leadsWith cs pat = true ↔ ∃ r, cs = pat ++ r := by
  induction pat with
  | nil =>
    intro cs
    rw [leadsWith.eq_def]
    cases cs with
    | nil => simp
    | cons a arest => simp
  | cons b bs ih =>
    intro cs
    cases cs with
    | nil =>
      rw [leadsWith]
      simp
    | cons a arest =>
      rw [leadsWith]
      rw [Bool.and_eq_true, beq_iff_eq, ih arest]
      constructor
      · rintro ⟨rfl, r, rfl⟩
        exact ⟨r, rfl⟩
      · rintro ⟨r, he⟩
        injection he with h1 h2
        exact ⟨h1, r, h2⟩

theorem noNL_iff (cs : List Char) : noNL cs = true ↔ nlChar ∉ cs := by
  unfold noNL
  rw [List.all_eq_true]
  constructor
  · intro h hm
    have := h nlChar hm
    simp at this
  · intro h c hc
    have : ¬(c = nlChar) := fun e => h (e ▸ hc)
    simpa using this

theorem slice_append (cs : List Char) (p q : Nat) (hpq : p ≤ q) (hq : q ≤ cs.length) :
    cs.drop p = sliceChars cs p q ++ cs.drop q := by
  unfold sliceChars
  conv_lhs => rw [← List.take_append_drop q cs]
  rw [List.drop_append_of_le_length (by rw [List.length_take]; omega)]

theorem slice_length (cs : List Char) (p q : Nat) (hq : q ≤ cs.length) :
    (sliceChars cs p q).length = q - p := by
  unfold sliceChars
  rw [List.length_drop, List.length_take]
  omega

theorem pair_decomposition (cs pre post : List Char) (i q : Nat)
    (hpre : pre ≠ []) (hpost : post ≠ [])
    (h1 : startOK cs pre i = true)
    (h2 : capOK cs post (i + pre.length) q = true) :
    cs = cs.take i ++ pre ++ sliceChars cs (i + pre.length) q ++ post ++
        cs.drop (q + post.length) ∧
      nlChar ∉ cs.take i ∧
      sliceChars cs (i + pre.length) q ≠ [] ∧
      nlChar ∉ sliceChars cs (i + pre.length) q := by
  unfold startOK at h1
  rw [Bool.and_eq_true] at h1
  obtain ⟨hA, hB⟩ := h1
  rw [leadsWith_iff] at hB
  obtain ⟨r1, hr1⟩ := hB
  unfold capOK at h2
  rw [Bool.and_eq_true, Bool.and_eq_true] at h2
  obtain ⟨⟨hpq0, hnoNL⟩, hC⟩ := h2
  rw [decide_eq_true_iff] at hpq0
  rw [leadsWith_iff] at hC
  obtain ⟨r2, hr2⟩ := hC
  have hlen1 := congrArg List.length hr1
  rw [List.length_drop, List.length_append] at hlen1
  have hlen2 := congrArg List.length hr2
  rw [List.length_drop, List.length_append] at hlen2
  have hprepos : 0 < pre.length := List.length_pos.mpr hpre
  have hpostpos : 0 < post.length := List.length_pos.mpr hpost
  have hq_le : q ≤ cs.length := by omega
  have hp_lt : i + pre.length < q := hpq0
  have e2 : cs.drop i = pre ++ cs.drop (i + pre.length) := by
    rw [hr1]
    have hd : cs.drop (i + pre.length) = r1 := by
      rw [← List.drop_drop, hr1, List.drop_left]
    rw [hd]
  have e3 : cs.drop (i + pre.length) = sliceChars cs (i + pre.length) q ++ cs.drop q :=
    slice_append cs (i + pre.length) q (by omega) hq_le
  have e4 : cs.drop q = post ++ cs.drop (q + post.length) := by
    rw [hr2]
    have hd : cs.drop (q + post.length) = r2 := by
      rw [← List.drop_drop, hr2, List.drop_left]
    rw [hd]
  refine ⟨?_, ?_, ?_, ?_⟩
  · calc cs = cs.take i ++ cs.drop i := (List.take_append_drop i cs).symm
      _ = cs.take i ++ (pre ++ cs.drop (i + pre.length)) := by rw [e2]
      _ = cs.take i ++ (pre ++ (sliceChars cs (i + pre.length) q ++ cs.drop q)) := by
          rw [← e3]
      _ = cs.take i ++ (pre ++ (sliceChars cs (i + pre.length) q ++
            (post ++ cs.drop (q + post.length)))) := by rw [← e4]
      _ = cs.take i ++ pre ++ sliceChars cs (i + pre.length) q ++ post ++
            cs.drop (q + post.length) := by simp [List.append_assoc]
  · rw [← noNL_iff]
    exact hA
  · have := slice_length cs (i + pre.length) q hq_le
    intro hnil
    rw [hnil] at this
    simp at this
    omega
  · rw [← noNL_iff]
    exact hnoNL

theorem decomposition_pair (cs pre post g a b : List Char)
    (he : cs = a ++ pre ++ g ++ post ++ b)
    (hna : nlChar ∉ a) (hg : g ≠ []) (hng : nlChar ∉ g) :
    a.length ≤ cs.length ∧ a.length + pre.length + g.length ≤ cs.length ∧
      startOK cs pre a.length = true ∧
      capOK cs post (a.length + pre.length) (a.length + pre.length + g.length) = true ∧
      sliceChars cs (a.length + pre.length) (a.length + pre.length + g.length) = g := by
  have hlen : cs.length = a.length + pre.length + g.length + post.length + b.length := by
    rw [he]
    simp [List.length_append]
    omega
  have hta : cs.take a.length = a := by
    rw [he]
    rw [show a ++ pre ++ g ++ post ++ b = a ++ (pre ++ g ++ post ++ b) by
      simp [List.append_assoc]]
    exact List.take_left a _
  have hda : cs.drop a.length = pre ++ (g ++ post ++ b) := by
    rw [he]
    rw [show a ++ pre ++ g ++ post ++ b = a ++ (pre ++ (g ++ post ++ b)) by
      simp [List.append_assoc]]
    exact List.drop_left a _
  have hdp : cs.drop (a.length + pre.length) = g ++ post ++ b := by
    rw [← List.drop_drop, hda, List.drop_left]
  have htq : cs.take (a.length + pre.length + g.length) = a ++ pre ++ g := by
    rw [he]
    rw [show a ++ pre ++ g ++ post ++ b = (a ++ pre ++ g) ++ (post ++ b) by
      simp [List.append_assoc]]
    rw [show a.length + pre.length + g.length = (a ++ pre ++ g).length by
      rw [List.length_append, List.length_append]]
    exact List.take_left _ _
  have hdq : cs.drop (a.length + pre.length + g.length) = post ++ b := by
    rw [he]
    rw [show a ++ pre ++ g ++ post ++ b = (a ++ pre ++ g) ++ (post ++ b) by
      simp [List.append_assoc]]
    rw [show a.length + pre.length + g.length = (a ++ pre ++ g).length by
      rw [List.length_append, List.length_append]]
    exact List.drop_left _ _
  have hslice : sliceChars cs (a.length + pre.length) (a.length + pre.length + g.length) = g := by
    unfold sliceChars
    rw [htq]
    rw [show a ++ pre ++ g = (a ++ pre) ++ g by simp [List.append_assoc]]
    rw [show a.length + pre.length = (a ++ pre).length by simp [List.length_append]]
    exact List.drop_left _ _
  have hgpos : 0 < g.length := List.length_pos.mpr hg
  refine ⟨by omega, by omega, ?_, ?_, hslice⟩
  · unfold startOK
    rw [Bool.and_eq_true]
    constructor
    · rw [hta, noNL_iff]
      exact hna
    · rw [hda, leadsWith_iff]
      exact ⟨g ++ post ++ b, rfl⟩
  · unfold capOK
    rw [Bool.and_eq_true, Bool.and_eq_true]
    refine ⟨⟨by rw [decide_eq_true_iff]; omega, ?_⟩, ?_⟩
    · rw [hslice, noNL_iff]
      exact hng
    · rw [hdq, leadsWith_iff]
      exact ⟨b, by simp [List.append_assoc]⟩

theorem pyMatch1_some_valid (pre post s g : String)
    (hpre : pre.toList ≠ []) (hpost : post.toList ≠ [])
    (h : pyMatch1 pre post s = some g) : ValidCapture pre post s g := by
  unfold pyMatch1 at h
  split at h
  · exact absurd h (by simp)
  · rename_i i heq1
    split at h
    · exact absurd h (by simp)
    · rename_i q heq2
      have hi : i ∈ (List.range (s.toList.length + 1)).filter
          (pairOKf s.toList pre.toList post.toList) := List.mem_of_mem_getLast? heq1
      have hq : q ∈ (List.range (s.toList.length + 1)).filter
          (capOK s.toList post.toList (i + pre.toList.length)) :=
        List.mem_of_mem_getLast? heq2
      have hpair := (List.mem_filter.mp hi).2
      have hcap := (List.mem_filter.mp hq).2
      unfold pairOKf at hpair
      rw [Bool.and_eq_true] at hpair
      obtain ⟨hstart, _⟩ := hpair
      obtain ⟨hdec, hnoa, hnonnil, hnog⟩ :=
        pair_decomposition s.toList pre.toList post.toList i q hpre hpost hstart hcap
      have hg : g = String.mk (sliceChars s.toList (i + pre.toList.length) q) :=
        (Option.some_injective _ h).symm
      refine ⟨s.toList.take i, s.toList.drop (q + post.toList.length), ?_, hnoa, ?_, ?_⟩
      · rw [hg]
        exact hdec
      · rw [hg]
        exact hnonnil
      · rw [hg]
        exact hnog

theorem pyMatch1_none_valid (pre post s : String)
    (h : pyMatch1 pre post s = none) : ∀ g, ¬ ValidCapture pre post s g := by
  intro g hvc
  obtain ⟨a, b, he, hna, hg, hng⟩ := hvc
  obtain ⟨hi_le, hq_le, hstart, hcap, hslice⟩ :=
    decomposition_pair s.toList pre.toList post.toList g.toList a b he hna hg hng
  have hpair : pairOKf s.toList pre.toList post.toList a.length = true := by
    unfold pairOKf
    rw [Bool.and_eq_true]
    refine ⟨hstart, ?_⟩
    rw [List.any_eq_true]
    refine ⟨a.length + pre.toList.length + g.toList.length, ?_, hcap⟩
    rw [List.mem_range]
    omega
  have hmem : a.length ∈ (List.range (s.toList.length + 1)).filter
      (pairOKf s.toList pre.toList post.toList) := by
    rw [List.mem_filter]
    exact ⟨by rw [List.mem_range]; omega, hpair⟩
  unfold pyMatch1 at h
  split at h
  · rename_i heq1
    rw [List.getLast?_eq_none_iff] at heq1
    rw [heq1] at hmem
    exact absurd hmem (List.not_mem_nil _)
  · rename_i i heq1
    split at h
    · rename_i heq2
      have hi : i ∈ (List.range (s.toList.length + 1)).filter
          (pairOKf s.toList pre.toList post.toList) := List.mem_of_mem_getLast? heq1
      have hpairi := (List.mem_filter.mp hi).2
      unfold pairOKf at hpairi
      rw [Bool.and_eq_true] at hpairi
      obtain ⟨_, hany⟩ := hpairi
      rw [List.any_eq_true] at hany
      obtain ⟨q, hqmem, hqcap⟩ := hany
      rw [List.getLast?_eq_none_iff] at heq2
      have : q ∈ (List.range (s.toList.length + 1)).filter
          (capOK s.toList post.toList (i + pre.toList.length)) := by
        rw [List.mem_filter]
        exact ⟨hqmem, hqcap⟩
      rw [heq2] at this
      exact absurd this (List.not_mem_nil _)
    · exact absurd h (by simp)

/-- A log line whose quoted path payload carries surrounding whitespace. -/
def cexLineC9 : String := addedRulePre ++ " x " ++ sq

/-- C9, counterexample to the claim as stated: on a matched line whose
captured group is `" x "` (surrounding spaces inside the quotes), the
callback returns the group verbatim — still starting with a space — not
trimmed of surrounding whitespace (`match.group(1)` is returned as-is). -/
theorem fimC9_counterexample :
    callback_audit_added_rule cexLineC9 = some " x " ∧
    (" x " : String).toList.head? = some (Char.ofNat 32) ∧
    (" x " : String) ≠ "x" := by
  refine ⟨by decide, by decide, by decide⟩

/-- C9 as amended: each of the three extraction matchers returns, on a
matched line, the single captured path-like group VERBATIM (not trimmed):
any returned string is a feasible capture — the line splits as
`junk ++ literal-prefix ++ group ++ literal-suffix ++ rest` with the
pre-junk and the non-empty group newline-free — and on a line admitting no
such capture the matcher returns the no-match result `None`. -/
theorem fimC9_callbacks_capture (line : String) :
    ((∀ g, callback_audit_added_rule line = some g →
        ValidCapture addedRulePre sq line g) ∧
      (callback_audit_added_rule line = none →
        ∀ g, ¬ ValidCapture addedRulePre sq line g)) ∧
    ((∀ g, callback_audit_loaded_rule line = some g →
        ValidCapture loadedRulePre loadedRulePost line g) ∧
      (callback_audit_loaded_rule line = none →
        ∀ g, ¬ ValidCapture loadedRulePre loadedRulePost line g)) ∧
    ((∀ g, callback_realtime_added_directory line = some g →
        ValidCapture realtimePre sq line g) ∧
      (callback_realtime_added_directory line = none →
        ∀ g, ¬ ValidCapture realtimePre sq line g)) := by
  refine ⟨⟨?_, ?_⟩, ⟨?_, ?_⟩, ⟨?_, ?_⟩⟩
  · intro g h
    exact pyMatch1_some_valid addedRulePre sq line g (by decide) (by decide) h
  · intro h g
    exact pyMatch1_none_valid addedRulePre sq line h g
  · intro g h
    exact pyMatch1_some_valid loadedRulePre loadedRulePost line g (by decide) (by decide) h
  · intro h g
    exact pyMatch1_none_valid loadedRulePre loadedRulePost line h g
  · intro g h
    exact pyMatch1_some_valid realtimePre sq line g (by decide) (by decide) h
  · intro h g
    exact pyMatch1_none_valid realtimePre sq line h g

/-- A well-formed audit-rule log line with payload `/tmp/x`. -/
def wLineC9 : String := addedRulePre ++ "/tmp/x" ++ sq

theorem fimC9_witness :
    callback_audit_added_rule wLineC9 = some "/tmp/x" ∧
    ValidCapture addedRulePre sq wLineC9 "/tmp/x" :=
  ⟨by decide, (fimC9_callbacks_capture wLineC9).1.1 "/tmp/x" (by decide)⟩

end WazuhFim
